import Mathlib

/-! BloodyCore: the single exported function AdjustAim.

A shallow embedding of `Build/BloodyCore.cpp`.

* A `float` is its 32-bit IEEE-754 binary32 pattern (`F32`).  The C expression
  `dx * smooth` is binary32 multiplication in the default rounding mode
  (round to nearest, ties to even), modelled by `f32_mul` with exact integer
  arithmetic.  The bits of a NaN result follow the x86 SSE convention (the
  quieted first NaN operand, and the default NaN `0xFFC00000` for `0 * inf`);
  no theorem below depends on which NaN pattern is produced.
* `BYTE report[64]` is a `List Nat`; `memcpy` is bounds-checked and returns
  `none` where the C call would leave the destination or the source.
* The three Win32 calls are answered by an explicit environment (`Win32`), and
  every call made is recorded in order in a trace of `Call`s.
-/

namespace BloodyCore

/-! ## Constants -/

/-- The macro `BLOODY_VID`. -/
def BLOODY_VID : Nat := 0x09DA

/-- The macro `BLOODY_PID`. -/
def BLOODY_PID : Nat := 0x31F8

/-! ## binary32 -/

/-- A `float`: a 32-bit pattern, sign bit 31, exponent bits 30..23, fraction bits 22..0. -/
structure F32 where
  bits : Nat
  isLt : bits < 4294967296
deriving DecidableEq

namespace F32

/-- The sign bit. -/
def sign (a : F32) : Nat := a.bits / 2147483648

/-- The biased exponent field. -/
def expo (a : F32) : Nat := a.bits / 8388608 % 256

/-- The fraction field. -/
def frac (a : F32) : Nat := a.bits % 8388608

/-- NaN: exponent all ones, fraction nonzero. -/
def isNaN (a : F32) : Bool := a.expo == 255 && a.frac != 0

/-- Infinity: exponent all ones, fraction zero. -/
def isInf (a : F32) : Bool := a.expo == 255 && a.frac == 0

/-- Finite: exponent not all ones (zeros, subnormals and normals). -/
def isFinite (a : F32) : Bool := a.expo != 255

/-- Positive or negative zero. -/
def isZero (a : F32) : Bool := a.expo == 0 && a.frac == 0

/-- The integer significand of a finite float: the fraction, with the hidden bit
for a normal number. -/
def sig (a : F32) : Nat := if a.expo = 0 then a.frac else 8388608 + a.frac

/-- The biased exponent that scales `sig`: a subnormal number scales like exponent
field 1.  A finite `a` has magnitude `sig a * 2 ^ (bexp a) / 2 ^ 150`. -/
def bexp (a : F32) : Nat := if a.expo = 0 then 1 else a.expo

/-- The value of a finite float as a rational number (`none` for infinities and NaN). -/
def toRat (a : F32) : Option ℚ :=
  if a.expo = 255 then none
  else some ((if a.sign = 1 then -1 else 1) * (a.sig : ℚ) * (2 : ℚ) ^ a.bexp / (2 : ℚ) ^ 150)

end F32

/-- Positive zero `0.0f`. -/
def f32_zero : F32 := ⟨0, by decide⟩

/-- The float made of a sign bit (taken modulo 2) and a magnitude pattern; a magnitude
pattern beyond that of infinity is replaced by infinity (overflow). -/
def f32_pack (s mag : Nat) : F32 :=
  ⟨s % 2 * 2147483648 + (if 2139095040 ≤ mag then 2139095040 else mag), by
    split <;> omega⟩

/-- The default NaN of an invalid operation (x86 "real indefinite", `0xFFC00000`). -/
def f32_defaultNaN : F32 := ⟨4290772992, by decide⟩

/-- A NaN operand with its quiet bit (bit 22) set. -/
def f32_quiet (a : F32) : F32 :=
  if h : a.bits / 4194304 % 2 = 1 then a else ⟨a.bits + 4194304, by have := a.isLt; omega⟩

/-- The number of binary digits of `n`, for `n < 2 ^ fuel`. -/
def bitLenAux : Nat → Nat → Nat
  | 0, _ => 0
  | fuel + 1, n => if n = 0 then 0 else bitLenAux fuel (n / 2) + 1

/-- The number of binary digits of a product of two significands (below `2 ^ 48`). -/
def bitLen (n : Nat) : Nat := bitLenAux 48 n

/-- The integer nearest to `num / den`, a tie going to the even one. -/
def roundHalfEven (num den : Nat) : Nat :=
  let q := num / den
  let r := num % den
  if 2 * r < den then q
  else if den < 2 * r then q + 1
  else if q % 2 = 0 then q else q + 1

/-- The C `a * b` on `float`: IEEE-754 binary32 multiplication, round to nearest even.

For finite nonzero operands the exact product is `m * 2 ^ (bexp a + bexp b) / 2 ^ 300`
with `m = sig a * sig b`.  With `bitLen m` the bit length of `m`, the result is a
multiple `q` of the unit `2 ^ tb / 2 ^ 149` where `tb = (bexp a + bexp b + bitLen m) - 175`
(truncated at 0: the subnormal unit), and `q` is the exact product divided by that
unit, that is `m / 2 ^ (tb + 151 - (bexp a + bexp b))`, rounded half to even (the
difference of exponents is never negative, see `f32_mul_shift`).  The pattern
`tb * 2 ^ 23 + q` then has exponent field and fraction in place (a `q` below `2 ^ 23`
is subnormal, `q = 2 ^ 24` carries into the exponent), and reaches the pattern of
infinity exactly on overflow. -/
def f32_mul (a b : F32) : F32 :=
  if a.isNaN then f32_quiet a
  else if b.isNaN then f32_quiet b
  else if (a.isInf && b.isZero) || (a.isZero && b.isInf) then f32_defaultNaN
  else if a.isInf || b.isInf then f32_pack (a.sign + b.sign) 2139095040
  else
    let m := a.sig * b.sig
    if m = 0 then f32_pack (a.sign + b.sign) 0
    else
      let tb := (a.bexp + b.bexp + bitLen m) - 175
      let q := roundHalfEven m (2 ^ (tb + 151 - (a.bexp + b.bexp)))
      f32_pack (a.sign + b.sign) (tb * 8388608 + q)

/-- The object representation of a `float` on the (little-endian) target: the four
bytes of its pattern, least significant first.  This is what `memcpy(_, &f, sizeof(float))`
reads. -/
def f32_bytes (a : F32) : List Nat :=
  [a.bits % 256, a.bits / 256 % 256, a.bits / 65536 % 256, a.bits / 16777216 % 256]

/-- The `float` whose object representation is the given four bytes. -/
def f32_ofBytes : List Nat → Option F32
  | [b0, b1, b2, b3] =>
    some ⟨b0 % 256 + 256 * (b1 % 256) + 65536 * (b2 % 256) + 16777216 * (b3 % 256), by omega⟩
  | _ => none

/-! ## Byte buffers -/

/-- The bytes of `l` at indices `i ≤ k < j`. -/
def slice (l : List Nat) (i j : Nat) : List Nat := (l.drop i).take (j - i)

/-- The C `memcpy(dst + off, src, n)`: the `n` first bytes of `src` replace the bytes
of `dst` at `off .. off + n`; `none` when the copy would leave `dst` or `src`. -/
def memcpy (dst : List Nat) (off : Nat) (src : List Nat) (n : Nat) : Option (List Nat) :=
  if off + n ≤ dst.length ∧ n ≤ src.length then
    some (dst.take off ++ src.take n ++ dst.drop (off + n))
  else none

/-! ## The Win32 interface -/

/-- A `HANDLE`, as a pointer-sized integer. -/
abbrev HANDLE := Nat

/-- The value `(HANDLE)(LONG_PTR)-1` of `Windows.h` on a 64-bit target. -/
def INVALID_HANDLE_VALUE : HANDLE := 18446744073709551615

/-- The access right `GENERIC_WRITE` of `Windows.h`. -/
def GENERIC_WRITE : Nat := 0x40000000

/-- The share mode `FILE_SHARE_READ` of `Windows.h`. -/
def FILE_SHARE_READ : Nat := 0x00000001

/-- The share mode `FILE_SHARE_WRITE` of `Windows.h`. -/
def FILE_SHARE_WRITE : Nat := 0x00000002

/-- The creation disposition `CREATE_NEW` of `Windows.h`. -/
def CREATE_NEW : Nat := 1

/-- The creation disposition `CREATE_ALWAYS` of `Windows.h`. -/
def CREATE_ALWAYS : Nat := 2

/-- The creation disposition `OPEN_EXISTING` of `Windows.h`. -/
def OPEN_EXISTING : Nat := 3

/-- The creation disposition `OPEN_ALWAYS` of `Windows.h`. -/
def OPEN_ALWAYS : Nat := 4

/-- The file attribute `FILE_ATTRIBUTE_NORMAL` of `Windows.h`. -/
def FILE_ATTRIBUTE_NORMAL : Nat := 0x00000080

/-- The null pointer. -/
def NULL : Nat := 0

/-- One call into the operating system, with its arguments and what it returned. -/
inductive Call where
  | CreateFileW (lpFileName : String)
      (dwDesiredAccess dwShareMode lpSecurityAttributes dwCreationDisposition
        dwFlagsAndAttributes hTemplateFile : Nat) (ret : HANDLE)
  | HidD_SetFeature (hidDeviceObject : HANDLE) (reportBuffer : List Nat)
      (reportBufferLength : Nat) (ret : Bool)
  | CloseHandle (hObject : HANDLE) (ret : Bool)
deriving DecidableEq

/-- The operating system as seen by one run: what each call answers. -/
structure Win32 where
  CreateFileW : String → Nat → Nat → Nat → Nat → Nat → Nat → HANDLE
  HidD_SetFeature : HANDLE → List Nat → Nat → Bool
  CloseHandle : HANDLE → Bool

/-- What one run of `AdjustAim` leaves behind: the local buffer `report` as it is when
the function returns, and the calls made, in order.  The function is `void`: there is
no returned value. -/
structure Run where
  report : List Nat
  calls : List Call
deriving DecidableEq

/-- The string literal passed to `CreateFileW`. -/
def devicePath : String := "\\\\.\\HID#VID_09DA&PID_31F8"

/-- What the one `CreateFileW` call of `AdjustAim` returns under `os`. -/
def Win32.openDevice (os : Win32) : HANDLE :=
  os.CreateFileW devicePath GENERIC_WRITE (FILE_SHARE_READ ||| FILE_SHARE_WRITE)
    NULL OPEN_EXISTING FILE_ATTRIBUTE_NORMAL NULL

/-- The exported function `AdjustAim(float dx, float dy, float smooth)`.
`none` stands for undefined behaviour (a `memcpy` out of bounds). -/
def AdjustAim (os : Win32) (dx dy smooth : F32) : Option Run := do
  let report : List Nat := [0x0B, 0x02] ++ List.replicate 62 0
  let finalDx := f32_mul dx smooth
  let finalDy := f32_mul dy smooth
  let report ← memcpy report 2 (f32_bytes finalDx) 4
  let report ← memcpy report 6 (f32_bytes finalDy) 4
  let hDevice := os.CreateFileW devicePath GENERIC_WRITE (FILE_SHARE_READ ||| FILE_SHARE_WRITE)
    NULL OPEN_EXISTING FILE_ATTRIBUTE_NORMAL NULL
  let opened := Call.CreateFileW devicePath GENERIC_WRITE (FILE_SHARE_READ ||| FILE_SHARE_WRITE)
    NULL OPEN_EXISTING FILE_ATTRIBUTE_NORMAL NULL hDevice
  if hDevice ≠ INVALID_HANDLE_VALUE then
    let written := Call.HidD_SetFeature hDevice report 64 (os.HidD_SetFeature hDevice report 64)
    let closed := Call.CloseHandle hDevice (os.CloseHandle hDevice)
    some ⟨report, [opened, written, closed]⟩
  else
    some ⟨report, [opened]⟩

/-! ## Reading a trace -/

/-- The uppercase hexadecimal digit of `d < 16`. -/
def hexDigit (d : Nat) : Char :=
  ['0', '1', '2', '3', '4', '5', '6', '7', '8', '9', 'A', 'B', 'C', 'D', 'E', 'F'].getD d '?'

/-- The 4-digit uppercase hexadecimal rendering of a 16-bit number. -/
def hex4 (n : Nat) : String :=
  String.mk [hexDigit (n / 4096 % 16), hexDigit (n / 256 % 16), hexDigit (n / 16 % 16),
    hexDigit (n % 16)]

/-- Whether a call is an open attempt. -/
def Call.isOpen : Call → Bool
  | .CreateFileW .. => true
  | _ => false

/-- Whether a call is an open attempt that returned a handle. -/
def Call.isOpened : Call → Bool
  | .CreateFileW _ _ _ _ _ _ _ ret => ret != INVALID_HANDLE_VALUE
  | _ => false

/-- Whether a call is a set-feature request. -/
def Call.isSetFeature : Call → Bool
  | .HidD_SetFeature .. => true
  | _ => false

/-- Whether a call closes a handle. -/
def Call.isClose : Call → Bool
  | .CloseHandle .. => true
  | _ => false

/-- The handle a call passes to the operating system, if any. -/
def Call.usedHandle : Call → Option HANDLE
  | .CreateFileW .. => none
  | .HidD_SetFeature h _ _ _ => some h
  | .CloseHandle h _ => some h

/-- No handle is passed to a call that comes after the call closing it. -/
def noUseAfterClose : List Call → Bool
  | [] => true
  | .CloseHandle h _ :: rest => rest.all (fun c => c.usedHandle != some h) && noUseAfterClose rest
  | _ :: rest => noUseAfterClose rest

/-! ## Concrete floats -/

/-- The float `1.0f`. -/
def f32_one : F32 := ⟨0x3F800000, by decide⟩

/-- The float `-2.0f`. -/
def f32_negTwo : F32 := ⟨0xC0000000, by decide⟩

/-- The float `0.5f`. -/
def f32_half : F32 := ⟨0x3F000000, by decide⟩

/-- The float `+inf`. -/
def f32_inf : F32 := ⟨0x7F800000, by decide⟩

/-- An operating system on which the device cannot be opened. -/
def osAbsent : Win32 :=
  ⟨fun _ _ _ _ _ _ _ => INVALID_HANDLE_VALUE, fun _ _ _ => false, fun _ => false⟩

/-- An operating system on which the open returns the handle `0x1F4` and the
set-feature request is refused. -/
def osRefusing : Win32 :=
  ⟨fun _ _ _ _ _ _ _ => 0x1F4, fun _ _ _ => false, fun _ => true⟩

/-- An operating system on which the open returns the handle `0x1F4` and the
set-feature request is accepted. -/
def osAccepting : Win32 :=
  ⟨fun _ _ _ _ _ _ _ => 0x1F4, fun _ _ _ => true, fun _ => true⟩

/-! ## The product, in the words of IEEE-754 -/

/-- The magnitude of a finite float, as a rational number. -/
def F32.mag (a : F32) : ℚ := (a.sig : ℚ) * (2 : ℚ) ^ a.bexp / (2 : ℚ) ^ 150

/-- The float `r` is the binary32 product of the finite floats `a` and `b`, rounded to
nearest with ties to even and overflow to infinity.  Its sign is the xor of the signs.
If the exact product of the magnitudes reaches `2 ^ 128 - 2 ^ 103` (the largest finite
magnitude plus half a unit in the last place), `r` is an infinity.  Otherwise `r` is
finite, no finite float is nearer to the exact product than `r`, and if a finite float
of another magnitude is as near as `r`, the last bit of `r` is 0. -/
def IsProductRNE (a b r : F32) : Prop :=
  r.sign = (a.sign + b.sign) % 2 ∧
  ((2 : ℚ) ^ 128 - (2 : ℚ) ^ 103 ≤ a.mag * b.mag → r.isInf = true) ∧
  (a.mag * b.mag < (2 : ℚ) ^ 128 - (2 : ℚ) ^ 103 →
    r.isFinite = true ∧
    (∀ y : F32, y.isFinite = true → |r.mag - a.mag * b.mag| ≤ |y.mag - a.mag * b.mag|) ∧
    (∀ y : F32, y.isFinite = true → y.mag ≠ r.mag →
      |y.mag - a.mag * b.mag| = |r.mag - a.mag * b.mag| → r.frac % 2 = 0))

/-- The unit in the last place of the floats whose magnitude pattern is
`tb * 2 ^ 23 + q`: such a float has magnitude `q * unitOf tb`. -/
def unitOf (tb : Nat) : ℚ := (2 : ℚ) ^ (tb + 1) / (2 : ℚ) ^ 150

/-! ## The run of `AdjustAim` in closed form -/

/-- Both copies stay in bounds, and the buffer is the header, the two products and
54 zero bytes; the calls are the open, then (on a valid handle) the request and the
close. -/
theorem AdjustAim_run (os : Win32) (dx dy smooth : F32) :
    AdjustAim os dx dy smooth =
      some ⟨[0x0B, 0x02] ++ f32_bytes (f32_mul dx smooth) ++ f32_bytes (f32_mul dy smooth)
              ++ List.replicate 54 0,
        Call.CreateFileW devicePath GENERIC_WRITE (FILE_SHARE_READ ||| FILE_SHARE_WRITE)
            NULL OPEN_EXISTING FILE_ATTRIBUTE_NORMAL NULL os.openDevice ::
          (if os.openDevice ≠ INVALID_HANDLE_VALUE then
            [Call.HidD_SetFeature os.openDevice
                ([0x0B, 0x02] ++ f32_bytes (f32_mul dx smooth) ++ f32_bytes (f32_mul dy smooth)
                  ++ List.replicate 54 0) 64
                (os.HidD_SetFeature os.openDevice
                  ([0x0B, 0x02] ++ f32_bytes (f32_mul dx smooth)
                    ++ f32_bytes (f32_mul dy smooth) ++ List.replicate 54 0) 64),
              Call.CloseHandle os.openDevice (os.CloseHandle os.openDevice)]
          else [])⟩ := by
  unfold AdjustAim
  by_cases h : os.openDevice = INVALID_HANDLE_VALUE
  · simp [memcpy, f32_bytes, Win32.openDevice, List.replicate] at *
    simp [h]
  · simp [memcpy, f32_bytes, Win32.openDevice, List.replicate] at *
    simp [h]

/-- Decoding the object representation of a float gives the float back. -/
theorem f32_ofBytes_bytes (a : F32) : f32_ofBytes (f32_bytes a) = some a := by
  obtain ⟨n, hn⟩ := a
  simp only [f32_bytes, f32_ofBytes, Option.some.injEq, F32.mk.injEq]
  omega

/-- The object representation of a float is four bytes. -/
theorem f32_bytes_length (a : F32) : (f32_bytes a).length = 4 := rfl

/-- The fields of a float made of a sign and the zero magnitude. -/
theorem f32_pack_zero_fields (s : Nat) :
    (f32_pack s 0).expo = 0 ∧ (f32_pack s 0).frac = 0 ∧ (f32_pack s 0).sign = s % 2 := by
  have hb : (f32_pack s 0).bits = s % 2 * 2147483648 := by
    show s % 2 * 2147483648 + (if 2139095040 ≤ 0 then 2139095040 else 0) = _
    rw [if_neg (by omega)]
    omega
  unfold F32.expo F32.frac F32.sign
  rw [hb]
  omega

/-- A sign and the zero magnitude pack to a zero with that sign. -/
theorem f32_pack_zero (s : Nat) :
    (f32_pack s 0).isZero = true ∧ (f32_pack s 0).sign = s % 2 ∧
      (f32_pack s 0).toRat = some 0 := by
  obtain ⟨he, hf, hs⟩ := f32_pack_zero_fields s
  refine ⟨?_, hs, ?_⟩
  · unfold F32.isZero
    rw [he, hf]
    rfl
  · have hsig : (f32_pack s 0).sig = 0 := by
      unfold F32.sig
      rw [if_pos he, hf]
    unfold F32.toRat
    rw [if_neg (by rw [he]; omega), hsig]
    simp

/-- A finite float times a zero is the zero whose sign is the sum of the signs. -/
theorem f32_mul_zero_right (a b : F32) (ha : a.isFinite = true) (hb : b.isZero = true) :
    f32_mul a b = f32_pack (a.sign + b.sign) 0 := by
  simp only [F32.isFinite, F32.isZero, bne_iff_ne, ne_eq, Bool.and_eq_true, beq_iff_eq] at ha hb
  have hsig : b.sig = 0 := by simp [F32.sig, hb.1, hb.2]
  simp [f32_mul, F32.isNaN, F32.isInf, F32.isZero, ha, hb.1, hb.2, hsig]

/-! ## The multiplication model is the IEEE-754 product -/

/-- The bit length brackets its argument between two powers of two. -/
theorem bitLenAux_spec (fuel : Nat) : ∀ n : Nat, n < 2 ^ fuel →
    n < 2 ^ bitLenAux fuel n ∧ (n ≠ 0 → 2 ^ bitLenAux fuel n ≤ 2 * n) := by
  induction fuel with
  | zero =>
    intro n hn
    have : n = 0 := by simpa using hn
    subst this
    simp [bitLenAux]
  | succ k ih =>
    intro n hn
    unfold bitLenAux
    by_cases h0 : n = 0
    · subst h0; simp
    · rw [if_neg h0]
      have hlt : n / 2 < 2 ^ k := by
        rw [pow_succ] at hn
        omega
      obtain ⟨h1, h2⟩ := ih (n / 2) hlt
      rw [pow_succ]
      constructor
      · omega
      · intro _
        by_cases h3 : n / 2 = 0
        · have : n = 1 := by omega
          subst this
          simp [bitLenAux]
          cases k <;> simp [bitLenAux]
        · have := h2 h3
          omega

/-- The integer significand has at most 24 bits. -/
theorem F32.sig_lt (a : F32) : a.sig < 16777216 := by
  unfold F32.sig F32.frac
  split <;> omega

/-- A float with a nonzero exponent field has its hidden bit set. -/
theorem F32.le_sig (a : F32) (h : a.expo ≠ 0) : 8388608 ≤ a.sig := by
  unfold F32.sig
  rw [if_neg h]
  omega

/-- A float whose significand is below the hidden bit scales like exponent 1. -/
theorem F32.bexp_of_sig_lt (a : F32) (h : a.sig < 8388608) : a.bexp = 1 := by
  unfold F32.bexp
  by_cases he : a.expo = 0
  · rw [if_pos he]
  · have := a.le_sig he
    omega

/-- The scaling exponent is at least 1, and at most 254 for a finite float. -/
theorem F32.bexp_bounds (a : F32) : 1 ≤ a.bexp ∧ (a.isFinite = true → a.bexp ≤ 254) := by
  unfold F32.bexp F32.isFinite
  have hlt : a.expo < 256 := by unfold F32.expo; omega
  constructor
  · split <;> omega
  · intro hf
    have : a.expo ≠ 255 := by simpa using hf
    split <;> omega

/-- Rounding half to even, on a quotient `q0` and a remainder `r < d`. -/
theorem roundHalfEven_aux (q0 r d : Nat) (hr : r < d) :
    ∀ q, q = (if 2 * r < d then q0 else if d < 2 * r then q0 + 1
          else if q0 % 2 = 0 then q0 else q0 + 1) →
      2 * (q * d) ≤ 2 * (q0 * d + r) + d ∧ 2 * (q0 * d + r) ≤ 2 * (q * d) + d ∧
      ((2 * (q * d) = 2 * (q0 * d + r) + d ∨ 2 * (q0 * d + r) = 2 * (q * d) + d) →
        q % 2 = 0) := by
  intro q hq
  have hs : (q0 + 1) * d = q0 * d + d := by ring
  split_ifs at hq with h1 h2 h3
  · subst hq
    refine ⟨by omega, by omega, ?_⟩
    intro h; omega
  · subst hq
    rw [hs]
    refine ⟨by omega, by omega, ?_⟩
    intro h; omega
  · subst hq
    refine ⟨by omega, by omega, fun _ => h3⟩
  · subst hq
    rw [hs]
    refine ⟨by omega, by omega, ?_⟩
    intro _; omega

/-- Rounding half to even is within half a unit of the quotient, and lands on an even
integer when it is exactly half a unit away. -/
theorem roundHalfEven_spec (m d : Nat) (hd : 0 < d) :
    2 * (roundHalfEven m d * d) ≤ 2 * m + d ∧ 2 * m ≤ 2 * (roundHalfEven m d * d) + d ∧
    ((2 * (roundHalfEven m d * d) = 2 * m + d ∨ 2 * m = 2 * (roundHalfEven m d * d) + d) →
      roundHalfEven m d % 2 = 0) := by
  have hm : m / d * d + m % d = m := by
    rw [Nat.mul_comm]
    exact Nat.div_add_mod m d
  have h := roundHalfEven_aux (m / d) (m % d) d (Nat.mod_lt _ hd) (roundHalfEven m d) rfl
  rw [hm] at h
  exact h

/-- The product of two significands has at most 48 bits. -/
theorem sig_mul_lt (a b : F32) : a.sig * b.sig < 2 ^ 48 := by
  have ha := a.sig_lt
  have hb := b.sig_lt
  calc a.sig * b.sig < 16777216 * 16777216 := Nat.mul_lt_mul'' ha hb
    _ = 2 ^ 48 := by norm_num

/-- The shift of `f32_mul`: the difference of exponents `tb + 151 - (bexp a + bexp b)`
is never negative, the scaled product is below `2 ^ 24`, and it is at least `2 ^ 23`
unless the unit is the subnormal one. -/
theorem f32_mul_shift (a b : F32) (hm : a.sig * b.sig ≠ 0) :
    a.bexp + b.bexp ≤ (a.bexp + b.bexp + bitLen (a.sig * b.sig)) - 175 + 151 ∧
    a.sig * b.sig < 16777216 *
      2 ^ ((a.bexp + b.bexp + bitLen (a.sig * b.sig)) - 175 + 151 - (a.bexp + b.bexp)) ∧
    (0 < (a.bexp + b.bexp + bitLen (a.sig * b.sig)) - 175 →
      8388608 * 2 ^ ((a.bexp + b.bexp + bitLen (a.sig * b.sig)) - 175 + 151
        - (a.bexp + b.bexp)) ≤ a.sig * b.sig) := by
  obtain ⟨hL1, hL2⟩ := bitLenAux_spec 48 (a.sig * b.sig) (sig_mul_lt a b)
  have hL2 := hL2 hm
  change a.sig * b.sig < 2 ^ bitLen (a.sig * b.sig) at hL1
  change 2 ^ bitLen (a.sig * b.sig) ≤ 2 * (a.sig * b.sig) at hL2
  have ha1 := (a.bexp_bounds).1
  have hb1 := (b.bexp_bounds).1
  generalize hLdef : bitLen (a.sig * b.sig) = L at *
  generalize hsdef : a.bexp + b.bexp = s at *
  -- a short product comes from two subnormal operands
  have hshort : L < 24 → s = 2 := by
    intro hlt
    have hp : 2 ^ L ≤ 2 ^ 23 := Nat.pow_le_pow_right (by norm_num) (by omega)
    have hmlt : a.sig * b.sig < 8388608 := by
      have : (2 : Nat) ^ 23 = 8388608 := by norm_num
      omega
    have hapos : 0 < a.sig := Nat.pos_of_ne_zero (fun h => hm (by rw [h, Nat.zero_mul]))
    have hbpos : 0 < b.sig := Nat.pos_of_ne_zero (fun h => hm (by rw [h, Nat.mul_zero]))
    have h1 : a.sig ≤ a.sig * b.sig := Nat.le_mul_of_pos_right _ hbpos
    have h2 : b.sig ≤ a.sig * b.sig := Nat.le_mul_of_pos_left _ hapos
    have := a.bexp_of_sig_lt (by omega)
    have := b.bexp_of_sig_lt (by omega)
    omega
  by_cases hbig : 175 ≤ s + L
  · -- normal range: the shift is `L - 24`
    have hL24 : 24 ≤ L := by
      by_contra hc
      have := hshort (by omega)
      omega
    have hsh : s + L - 175 + 151 - s = L - 24 := by omega
    have hpow : (2 : Nat) ^ L = 16777216 * 2 ^ (L - 24) := by
      have : L = 24 + (L - 24) := by omega
      conv_lhs => rw [this, pow_add]
      norm_num
    rw [hsh]
    refine ⟨by omega, by omega, fun _ => by omega⟩
  · -- subnormal unit: `tb = 0`
    have htb : s + L - 175 = 0 := by omega
    have hs151 : s ≤ 151 := by
      by_cases h24 : L < 24
      · have := hshort h24; omega
      · omega
    rw [htb]
    refine ⟨by omega, ?_, fun h => absurd h (by omega)⟩
    have hle : L ≤ 24 + (0 + 151 - s) := by omega
    have hp : (2 : Nat) ^ L ≤ 2 ^ (24 + (0 + 151 - s)) :=
      Nat.pow_le_pow_right (by norm_num) hle
    rw [pow_add] at hp
    have : (2 : Nat) ^ 24 = 16777216 := by norm_num
    rw [this] at hp
    omega

/-- The pattern of a packed float. -/
theorem f32_pack_bits (sg mag : Nat) :
    (f32_pack sg mag).bits =
      sg % 2 * 2147483648 + (if 2139095040 ≤ mag then 2139095040 else mag) := rfl

/-- A magnitude pattern at or beyond that of infinity packs to an infinity. -/
theorem f32_pack_overflow (sg mag : Nat) (h : 2139095040 ≤ mag) :
    (f32_pack sg mag).isInf = true ∧ (f32_pack sg mag).sign = sg % 2 := by
  have hb : (f32_pack sg mag).bits = sg % 2 * 2147483648 + 2139095040 := by
    rw [f32_pack_bits, if_pos h]
  have he : (f32_pack sg mag).expo = 255 := by unfold F32.expo; rw [hb]; omega
  have hf : (f32_pack sg mag).frac = 0 := by unfold F32.frac; rw [hb]; omega
  constructor
  · unfold F32.isInf
    rw [he, hf]
    rfl
  · unfold F32.sign
    rw [hb]
    omega

/-- A magnitude pattern `tb * 2 ^ 23 + q` below that of infinity, with `q ≤ 2 ^ 24` and
`q` normalised unless `tb = 0`, packs to the finite float of magnitude
`q * 2 ^ (tb + 1) / 2 ^ 150`, whose last fraction bit is the last bit of `q`. -/
theorem f32_pack_fields (sg tb q : Nat) (hq : q ≤ 16777216) (hn : tb = 0 ∨ 8388608 ≤ q)
    (hP : tb * 8388608 + q < 2139095040) :
    (f32_pack sg (tb * 8388608 + q)).isFinite = true ∧
    (f32_pack sg (tb * 8388608 + q)).sign = sg % 2 ∧
    (f32_pack sg (tb * 8388608 + q)).sig * 2 ^ (f32_pack sg (tb * 8388608 + q)).bexp
      = q * 2 ^ (tb + 1) ∧
    (f32_pack sg (tb * 8388608 + q)).frac % 2 = q % 2 := by
  have hb : (f32_pack sg (tb * 8388608 + q)).bits
      = sg % 2 * 2147483648 + (tb * 8388608 + q) := by
    rw [f32_pack_bits, if_neg (by omega)]
  generalize f32_pack sg (tb * 8388608 + q) = r at hb
  have hsign : r.sign = sg % 2 := by unfold F32.sign; rw [hb]; omega
  have hfrac : r.frac % 2 = q % 2 := by unfold F32.frac; rw [hb]; omega
  have hfin : r.isFinite = true := by
    have : r.expo ≠ 255 := by unfold F32.expo; rw [hb]; omega
    unfold F32.isFinite
    simpa using this
  refine ⟨hfin, hsign, ?_, hfrac⟩
  by_cases h1 : q < 8388608
  · -- subnormal result
    have htb : tb = 0 := by omega
    subst htb
    have he : r.expo = 0 := by unfold F32.expo; rw [hb]; omega
    have hf : r.frac = q := by unfold F32.frac; rw [hb]; omega
    unfold F32.sig F32.bexp
    rw [if_pos he, if_pos he, hf]
  · by_cases h2 : q < 16777216
    · -- normal result
      have he : r.expo = tb + 1 := by unfold F32.expo; rw [hb]; omega
      have hf : r.frac = q - 8388608 := by unfold F32.frac; rw [hb]; omega
      unfold F32.sig F32.bexp
      rw [if_neg (by omega), if_neg (by omega), hf, he]
      have hq8 : 8388608 + (q - 8388608) = q := by omega
      rw [hq8]
    · -- the rounding carried into the exponent
      have hq' : q = 16777216 := by omega
      subst hq'
      have he : r.expo = tb + 2 := by unfold F32.expo; rw [hb]; omega
      have hf : r.frac = 0 := by unfold F32.frac; rw [hb]; omega
      unfold F32.sig F32.bexp
      rw [if_neg (by omega), if_neg (by omega), hf, he]
      rw [show tb + 2 = (tb + 1) + 1 from rfl, pow_succ]
      omega

/-- On finite operands with a nonzero product of significands, `f32_mul` is the rounded
quotient packed with the xor of the signs. -/
theorem f32_mul_finite (a b : F32) (ha : a.isFinite = true) (hb : b.isFinite = true)
    (hm : a.sig * b.sig ≠ 0) :
    f32_mul a b = f32_pack (a.sign + b.sign)
      (((a.bexp + b.bexp + bitLen (a.sig * b.sig)) - 175) * 8388608 +
        roundHalfEven (a.sig * b.sig)
          (2 ^ ((a.bexp + b.bexp + bitLen (a.sig * b.sig)) - 175 + 151
            - (a.bexp + b.bexp)))) := by
  have ha' : a.expo ≠ 255 := by unfold F32.isFinite at ha; simpa using ha
  have hb' : b.expo ≠ 255 := by unfold F32.isFinite at hb; simpa using hb
  have h1 : a.isNaN = false := by unfold F32.isNaN; simp [ha']
  have h2 : b.isNaN = false := by unfold F32.isNaN; simp [hb']
  have h3 : a.isInf = false := by unfold F32.isInf; simp [ha']
  have h4 : b.isInf = false := by unfold F32.isInf; simp [hb']
  unfold f32_mul
  simp only [h1, h2, h3, h4, Bool.false_and, Bool.and_false, Bool.or_self, Bool.false_eq_true,
    if_false, hm]

/-- Among the integer multiples of `d`, the rounded quotient times `d` is nearest to `m`;
another multiple is as near only at an exact half. -/
theorem nearest_core (q d m K : ℤ) (hd : 0 < d) (h1 : 2 * (q * d) ≤ 2 * m + d)
    (h2 : 2 * m ≤ 2 * (q * d) + d) :
    |q * d - m| ≤ |K * d - m| ∧
    (K ≠ q → |K * d - m| = |q * d - m| →
      (2 * (q * d) = 2 * m + d ∨ 2 * m = 2 * (q * d) + d) ∧ (K = q + 1 ∨ K + 1 = q)) := by
  rcases lt_trichotomy K q with hlt | heq | hgt
  · have h3 : (K + 1) * d ≤ q * d := mul_le_mul_of_nonneg_right (by omega) (le_of_lt hd)
    have h4 : (K + 1) * d = K * d + d := by ring
    have hadj : (K + 1) * d = q * d → K + 1 = q := fun h => mul_right_cancel₀ (ne_of_gt hd) h
    rw [h4] at h3 hadj
    rcases abs_cases (q * d - m) with ⟨e1, _⟩ | ⟨e1, _⟩ <;>
      rcases abs_cases (K * d - m) with ⟨e2, _⟩ | ⟨e2, _⟩ <;>
      rw [e1, e2] <;>
      refine ⟨by omega, fun _ he => ⟨by omega, Or.inr (hadj (by omega))⟩⟩
  · subst heq
    exact ⟨le_refl _, fun h => absurd rfl h⟩
  · have h3 : (q + 1) * d ≤ K * d := mul_le_mul_of_nonneg_right (by omega) (le_of_lt hd)
    have h4 : (q + 1) * d = q * d + d := by ring
    have hadj : (q + 1) * d = K * d → q + 1 = K := fun h => mul_right_cancel₀ (ne_of_gt hd) h
    rw [h4] at h3 hadj
    rcases abs_cases (q * d - m) with ⟨e1, _⟩ | ⟨e1, _⟩ <;>
      rcases abs_cases (K * d - m) with ⟨e2, _⟩ | ⟨e2, _⟩ <;>
      rw [e1, e2] <;>
      refine ⟨by omega, fun _ he => ⟨by omega, Or.inl (hadj (by omega)).symm⟩⟩

/-- The same over the rationals, with every distance scaled by a positive unit `U`:
`U * q` is nearest to `U * (m / d)` among the `U * K`. -/
theorem nearest_scaled (U : ℚ) (hU : 0 < U) (q d m K : ℕ) (hd : 0 < d)
    (h1 : 2 * (q * d) ≤ 2 * m + d) (h2 : 2 * m ≤ 2 * (q * d) + d) :
    |U * q - U * ((m : ℚ) / d)| ≤ |U * K - U * ((m : ℚ) / d)| ∧
    (K ≠ q → |U * K - U * ((m : ℚ) / d)| = |U * q - U * ((m : ℚ) / d)| →
      (2 * (q * d) = 2 * m + d ∨ 2 * m = 2 * (q * d) + d) ∧ (K = q + 1 ∨ K + 1 = q)) := by
  have hdq : (0 : ℚ) < d := by exact_mod_cast hd
  have hc := nearest_core (q : ℤ) (d : ℤ) (m : ℤ) (K : ℤ) (by exact_mod_cast hd)
    (by exact_mod_cast h1) (by exact_mod_cast h2)
  have key : ∀ n : ℕ, |U * n - U * ((m : ℚ) / d)|
      = U / d * (((|(n : ℤ) * d - m| : ℤ)) : ℚ) := by
    intro n
    have : U * (n : ℚ) - U * ((m : ℚ) / d) = U / d * ((((n : ℤ) * d - m : ℤ)) : ℚ) := by
      push_cast
      field_simp
      ring
    rw [this, abs_mul, abs_of_pos (div_pos hU hdq), Int.cast_abs]
  have hpos : (0 : ℚ) < U / d := div_pos hU hdq
  rw [key q, key K]
  constructor
  · exact mul_le_mul_of_nonneg_left (by exact_mod_cast hc.1) (le_of_lt hpos)
  · intro hne heq
    have hne' : (K : ℤ) ≠ q := by exact_mod_cast hne
    have heq' : |(K : ℤ) * d - m| = |(q : ℤ) * d - m| := by
      have := mul_left_cancel₀ (ne_of_gt hpos) heq
      exact_mod_cast this
    obtain ⟨ht, ha⟩ := hc.2 hne' heq'
    constructor
    · rcases ht with h | h
      · left; exact_mod_cast h
      · right; exact_mod_cast h
    · rcases ha with h | h
      · left; exact_mod_cast h
      · right; exact_mod_cast h

/-- The unit is positive. -/
theorem unitOf_pos (tb : Nat) : 0 < unitOf tb := by
  unfold unitOf; positivity

/-- The exact product of two magnitudes, in units of the result. -/
theorem mag_mul_eq (a b : F32) (tb sh : Nat) (h : a.bexp + b.bexp + sh = tb + 151) :
    a.mag * b.mag = unitOf tb * (((a.sig * b.sig : ℕ) : ℚ) / ((2 ^ sh : ℕ) : ℚ)) := by
  have hp : (2 : ℚ) ^ a.bexp * 2 ^ b.bexp * 2 ^ sh = 2 ^ (tb + 1) * 2 ^ 150 := by
    have he : a.bexp + b.bexp + sh = tb + 1 + 150 := by omega
    rw [← pow_add, ← pow_add, ← pow_add, he]
  unfold F32.mag unitOf
  push_cast
  rw [div_mul_div_comm, div_mul_div_comm, div_eq_div_iff (by positivity) (by positivity)]
  linear_combination ((a.sig : ℚ) * b.sig * 2 ^ 150) * hp

/-- The magnitude of a float whose significand and exponent multiply to `q * 2 ^ (tb + 1)`. -/
theorem mag_eq_unit_mul (r : F32) (q tb : Nat) (h : r.sig * 2 ^ r.bexp = q * 2 ^ (tb + 1)) :
    r.mag = unitOf tb * q := by
  have hq : ((r.sig : ℚ)) * 2 ^ r.bexp = q * 2 ^ (tb + 1) := by exact_mod_cast h
  unfold F32.mag unitOf
  rw [hq]
  ring

/-- A finite float is a multiple of the unit, or lies below `2 ^ 23` units. -/
theorem mag_unit_cases (y : F32) (tb : Nat) :
    (tb + 1 ≤ y.bexp ∧ y.mag = unitOf tb * ((y.sig * 2 ^ (y.bexp - (tb + 1)) : ℕ) : ℚ)) ∨
      (0 < tb ∧ y.mag < unitOf tb * 8388608) := by
  by_cases h : tb + 1 ≤ y.bexp
  · left
    refine ⟨h, ?_⟩
    apply mag_eq_unit_mul
    rw [Nat.mul_assoc, ← pow_add]
    congr 2
    omega
  · right
    have hb := (y.bexp_bounds).1
    refine ⟨by omega, ?_⟩
    have hs : (y.sig : ℚ) < 16777216 := by exact_mod_cast y.sig_lt
    have hpw : (2 : ℚ) ^ y.bexp ≤ 2 ^ tb := pow_le_pow_right₀ (by norm_num) (by omega)
    have hpos : (0 : ℚ) < 2 ^ y.bexp := by positivity
    unfold F32.mag unitOf
    rw [div_mul_eq_mul_div, div_lt_div_iff_of_pos_right (by positivity)]
    calc (y.sig : ℚ) * 2 ^ y.bexp < 16777216 * 2 ^ y.bexp :=
          mul_lt_mul_of_pos_right hs hpos
      _ ≤ 16777216 * 2 ^ tb := by
          exact mul_le_mul_of_nonneg_left hpw (by norm_num)
      _ = 2 ^ (tb + 1) * 8388608 := by rw [pow_succ]; ring

/-- On finite operands whose significands multiply to zero, `f32_mul` is a signed zero. -/
theorem f32_mul_finite_zero (a b : F32) (ha : a.isFinite = true) (hb : b.isFinite = true)
    (hm : a.sig * b.sig = 0) : f32_mul a b = f32_pack (a.sign + b.sign) 0 := by
  have ha' : a.expo ≠ 255 := by unfold F32.isFinite at ha; simpa using ha
  have hb' : b.expo ≠ 255 := by unfold F32.isFinite at hb; simpa using hb
  have h1 : a.isNaN = false := by unfold F32.isNaN; simp [ha']
  have h2 : b.isNaN = false := by unfold F32.isNaN; simp [hb']
  have h3 : a.isInf = false := by unfold F32.isInf; simp [ha']
  have h4 : b.isInf = false := by unfold F32.isInf; simp [hb']
  unfold f32_mul
  simp only [h1, h2, h3, h4, Bool.false_and, Bool.and_false, Bool.or_self, Bool.false_eq_true,
    if_false, hm, if_true]

/-- The rounded quotient of `f32_mul` is at most `2 ^ 24`, and at least `2 ^ 23` unless
the unit is the subnormal one. -/
theorem round_bounds (m d tb : Nat) (hd : 0 < d) (h2 : m < 16777216 * d)
    (h3 : 0 < tb → 8388608 * d ≤ m) :
    roundHalfEven m d ≤ 16777216 ∧ (0 < tb → 8388608 ≤ roundHalfEven m d) := by
  obtain ⟨r1, r2, -⟩ := roundHalfEven_spec m d hd
  generalize roundHalfEven m d = q at r1 r2
  constructor
  · by_contra hc
    have : 16777217 * d ≤ q * d := Nat.mul_le_mul_right d (by omega)
    omega
  · intro htb
    have := h3 htb
    by_contra hc
    have : q * d ≤ 8388607 * d := Nat.mul_le_mul_right d (by omega)
    omega

/-- The unit grows with its index. -/
theorem unitOf_mono {s t : Nat} (h : s ≤ t) : unitOf s ≤ unitOf t := by
  unfold unitOf
  rw [div_le_div_iff_of_pos_right (by positivity)]
  exact pow_le_pow_right₀ (by norm_num) (by omega)

/-- The magnitude pattern reaches that of infinity only if the exact product reaches
the overflow threshold `2 ^ 128 - 2 ^ 103`. -/
theorem overflow_of_pattern (m d tb : Nat) (hd : 0 < d)
    (h3 : 0 < tb → 8388608 * d ≤ m)
    (hP : 2139095040 ≤ tb * 8388608 + roundHalfEven m d)
    (hq : roundHalfEven m d ≤ 16777216) :
    (2 : ℚ) ^ 128 - (2 : ℚ) ^ 103 ≤ unitOf tb * ((m : ℚ) / d) := by
  obtain ⟨r1, -, -⟩ := roundHalfEven_spec m d hd
  generalize roundHalfEven m d = q at r1 hP hq
  have hdq : (0 : ℚ) < d := by exact_mod_cast hd
  have htb : 253 ≤ tb := by omega
  have hm := h3 (by omega)
  by_cases h254 : 254 ≤ tb
  · have hmd : (8388608 : ℚ) ≤ (m : ℚ) / d := by
      rw [le_div_iff₀ hdq]
      exact_mod_cast hm
    have hu : unitOf 254 ≤ unitOf tb := unitOf_mono h254
    have hu0 : (0 : ℚ) < unitOf 254 := unitOf_pos _
    calc (2 : ℚ) ^ 128 - (2 : ℚ) ^ 103 ≤ unitOf 254 * 8388608 := by
          unfold unitOf; norm_num
      _ ≤ unitOf tb * 8388608 := mul_le_mul_of_nonneg_right hu (by norm_num)
      _ ≤ unitOf tb * ((m : ℚ) / d) :=
          mul_le_mul_of_nonneg_left hmd (le_of_lt (unitOf_pos _))
  · have h253 : tb = 253 := by omega
    subst h253
    have hq' : q = 16777216 := by omega
    subst hq'
    have hmd : (33554431 : ℚ) / 2 ≤ (m : ℚ) / d := by
      rw [le_div_iff₀ hdq, div_mul_eq_mul_div, div_le_iff₀ (by norm_num)]
      have : 33554431 * d ≤ m * 2 := by omega
      exact_mod_cast this
    calc (2 : ℚ) ^ 128 - (2 : ℚ) ^ 103 = unitOf 253 * (33554431 / 2) := by
          unfold unitOf; norm_num
      _ ≤ unitOf 253 * ((m : ℚ) / d) :=
          mul_le_mul_of_nonneg_left hmd (le_of_lt (unitOf_pos _))

/-- The magnitude pattern stays below that of infinity only if the exact product is
below the overflow threshold. -/
theorem pattern_of_overflow (m d tb : Nat) (hd : 0 < d) (h2 : m < 16777216 * d)
    (hP : tb * 8388608 + roundHalfEven m d < 2139095040)
    (hq : 0 < tb → 8388608 ≤ roundHalfEven m d) :
    unitOf tb * ((m : ℚ) / d) < (2 : ℚ) ^ 128 - (2 : ℚ) ^ 103 := by
  obtain ⟨-, r2, r3⟩ := roundHalfEven_spec m d hd
  generalize roundHalfEven m d = q at r2 r3 hP hq
  have hdq : (0 : ℚ) < d := by exact_mod_cast hd
  have htb : tb ≤ 253 := by
    by_contra hc
    have := hq (by omega)
    omega
  by_cases h252 : tb ≤ 252
  · have hmd : (m : ℚ) / d < 16777216 := by
      rw [div_lt_iff₀ hdq]
      exact_mod_cast h2
    have hu : unitOf tb ≤ unitOf 252 := unitOf_mono h252
    calc unitOf tb * ((m : ℚ) / d) < unitOf tb * 16777216 :=
          mul_lt_mul_of_pos_left hmd (unitOf_pos _)
      _ ≤ unitOf 252 * 16777216 := mul_le_mul_of_nonneg_right hu (by norm_num)
      _ ≤ (2 : ℚ) ^ 128 - (2 : ℚ) ^ 103 := by unfold unitOf; norm_num
  · have h253 : tb = 253 := by omega
    subst h253
    have hq1 := hq (by omega)
    have hq2 : q ≤ 16777215 := by omega
    have hqd : q * d ≤ 16777215 * d := Nat.mul_le_mul_right d hq2
    have hlt : m * 2 < 33554431 * d := by
      by_contra hc
      have htie : 2 * m = 2 * (q * d) + d := by omega
      have heven := r3 (Or.inr htie)
      have hqd' : q * d = 16777215 * d := by omega
      have : q = 16777215 := Nat.eq_of_mul_eq_mul_right hd hqd'
      omega
    have hmd : (m : ℚ) / d < 33554431 / 2 := by
      rw [div_lt_iff₀ hdq, div_mul_eq_mul_div, lt_div_iff₀ (by norm_num)]
      exact_mod_cast hlt
    calc unitOf 253 * ((m : ℚ) / d) < unitOf 253 * (33554431 / 2) :=
          mul_lt_mul_of_pos_left hmd (unitOf_pos _)
      _ = (2 : ℚ) ^ 128 - (2 : ℚ) ^ 103 := by unfold unitOf; norm_num

/-- The magnitude of a float with a zero significand is zero. -/
theorem mag_eq_zero (r : F32) (h : r.sig = 0) : r.mag = 0 := by
  unfold F32.mag
  rw [h]
  simp

/-- A value below a grid point that is itself below the target is farther from the
target than the nearest grid point. -/
theorem far_below (g x r y : ℚ) (h8 : |r - x| ≤ |g - x|) (hge : g ≤ x) (hlt : y < g) :
    |r - x| < |y - x| := by
  have hR : |g - x| = x - g := by rw [abs_of_nonpos (by linarith)]; ring
  have hY : |y - x| = x - y := by rw [abs_of_neg (by linarith)]; ring
  rw [hR] at h8
  rw [hY]
  linarith

/-- The model of the C multiplication is the IEEE-754 product: on finite operands,
`f32_mul` returns the float that `IsProductRNE` describes. -/
theorem f32_mul_isProductRNE (a b : F32) (ha : a.isFinite = true) (hb : b.isFinite = true) :
    IsProductRNE a b (f32_mul a b) := by
  by_cases hm : a.sig * b.sig = 0
  · -- a zero operand: the exact product is zero and so is the result
    rw [f32_mul_finite_zero a b ha hb hm]
    obtain ⟨he, hf, hs⟩ := f32_pack_zero_fields (a.sign + b.sign)
    have hx : a.mag * b.mag = 0 := by
      unfold F32.mag
      have : (a.sig : ℚ) * b.sig = 0 := by exact_mod_cast hm
      rcases mul_eq_zero.1 this with h | h <;> rw [h] <;> simp
    have hsig : (f32_pack (a.sign + b.sign) 0).sig = 0 := by
      unfold F32.sig
      rw [if_pos he, hf]
    have hr : (f32_pack (a.sign + b.sign) 0).mag = 0 := mag_eq_zero _ hsig
    refine ⟨hs, ?_, ?_⟩
    · intro h
      rw [hx] at h
      norm_num at h
    · intro _
      refine ⟨?_, ?_, ?_⟩
      · unfold F32.isFinite
        rw [he]
        rfl
      · intro y _
        rw [hr, hx]
        simp
      · intro _ _ _ _
        rw [hf]
  · -- the general case
    rw [f32_mul_finite a b ha hb hm]
    obtain ⟨s1, s2, s3⟩ := f32_mul_shift a b hm
    generalize htb : (a.bexp + b.bexp + bitLen (a.sig * b.sig)) - 175 = tb at s1 s2 s3
    generalize hsh : tb + 151 - (a.bexp + b.bexp) = sh at s2 s3
    have hd : 0 < 2 ^ sh := Nat.pow_pos (by norm_num)
    have hsum : a.bexp + b.bexp + sh = tb + 151 := by omega
    have hx := mag_mul_eq a b tb sh hsum
    obtain ⟨q1, q2⟩ := round_bounds (a.sig * b.sig) (2 ^ sh) tb hd s2 s3
    obtain ⟨r1, r2, r3⟩ := roundHalfEven_spec (a.sig * b.sig) (2 ^ sh) hd
    generalize hq : roundHalfEven (a.sig * b.sig) (2 ^ sh) = q at q1 q2 r1 r2 r3
    have o1 := overflow_of_pattern (a.sig * b.sig) (2 ^ sh) tb hd s3
    have o2 := pattern_of_overflow (a.sig * b.sig) (2 ^ sh) tb hd s2
    rw [hq] at o1 o2
    rw [← hx] at o1 o2
    by_cases hP : 2139095040 ≤ tb * 8388608 + q
    · -- overflow
      obtain ⟨hinf, hsgn⟩ := f32_pack_overflow (a.sign + b.sign) _ hP
      refine ⟨hsgn, fun _ => hinf, ?_⟩
      intro hlt
      exact absurd (o1 hP q1) (not_le.2 hlt)
    · -- a finite result
      have hP' : tb * 8388608 + q < 2139095040 := by omega
      have hn : tb = 0 ∨ 8388608 ≤ q := by
        by_cases h0 : tb = 0
        · exact Or.inl h0
        · exact Or.inr (q2 (by omega))
      obtain ⟨hfin, hsgn, hval, hpar⟩ := f32_pack_fields (a.sign + b.sign) tb q q1 hn hP'
      have hr := mag_eq_unit_mul _ q tb hval
      refine ⟨hsgn, ?_, ?_⟩
      · intro hge
        exact absurd (o2 hP' q2) (not_lt.2 hge)
      · intro _
        have hU := unitOf_pos tb
        refine ⟨hfin, ?_, ?_⟩
        · intro y _
          rw [hr, hx]
          rcases mag_unit_cases y tb with ⟨-, hK⟩ | ⟨htpos, hlt⟩
          · rw [hK]
            exact (nearest_scaled (unitOf tb) hU q (2 ^ sh) (a.sig * b.sig) _ hd r1 r2).1
          · have hn8 := (nearest_scaled (unitOf tb) hU q (2 ^ sh) (a.sig * b.sig) 8388608
              hd r1 r2).1
            have hge : unitOf tb * ((8388608 : ℕ) : ℚ)
                ≤ unitOf tb * (((a.sig * b.sig : ℕ) : ℚ) / ((2 ^ sh : ℕ) : ℚ)) := by
              apply mul_le_mul_of_nonneg_left _ (le_of_lt hU)
              rw [le_div_iff₀ (by exact_mod_cast hd)]
              exact_mod_cast s3 htpos
            have hlt' : y.mag < unitOf tb * ((8388608 : ℕ) : ℚ) := by exact_mod_cast hlt
            exact le_of_lt (far_below _ _ _ _ hn8 hge hlt')
        · intro y _ hne heq
          rw [hpar]
          rw [hr, hx] at heq
          rcases mag_unit_cases y tb with ⟨-, hK⟩ | ⟨htpos, hlt⟩
          · rw [hK] at heq
            have hKq : y.sig * 2 ^ (y.bexp - (tb + 1)) ≠ q := by
              intro h
              apply hne
              rw [hK, hr, h]
            exact r3 ((nearest_scaled (unitOf tb) hU q (2 ^ sh) (a.sig * b.sig) _ hd r1 r2).2
              hKq heq).1
          · exfalso
            have hn8 := (nearest_scaled (unitOf tb) hU q (2 ^ sh) (a.sig * b.sig) 8388608
              hd r1 r2).1
            have hge : unitOf tb * ((8388608 : ℕ) : ℚ)
                ≤ unitOf tb * (((a.sig * b.sig : ℕ) : ℚ) / ((2 ^ sh : ℕ) : ℚ)) := by
              apply mul_le_mul_of_nonneg_left _ (le_of_lt hU)
              rw [le_div_iff₀ (by exact_mod_cast hd)]
              exact_mod_cast s3 htpos
            have hlt' : y.mag < unitOf tb * ((8388608 : ℕ) : ℚ) := by exact_mod_cast hlt
            have := far_below _ _ _ _ hn8 hge hlt'
            rw [heq] at this
            exact lt_irrefl _ this

/-- A pattern is its three fields. -/
theorem F32.bits_eq (r : F32) :
    r.bits = r.sign * 2147483648 + r.expo * 8388608 + r.frac := by
  have := r.isLt
  unfold F32.sign F32.expo F32.frac
  omega

/-- Two floats with the same three fields are the same float. -/
theorem F32.eq_of_fields (r r' : F32) (hs : r.sign = r'.sign) (he : r.expo = r'.expo)
    (hf : r.frac = r'.frac) : r = r' := by
  have h : r.bits = r'.bits := by rw [r.bits_eq, r'.bits_eq, hs, he, hf]
  cases r; cases r'
  simp only [F32.mk.injEq]
  exact h

/-- A normalised significand and its exponent are determined by their product. -/
theorem scaled_inj_aux (s e s' e' : Nat) (hle : e ≤ e') (h1 : 1 ≤ e)
    (hs : s < 16777216) (hn' : s' < 8388608 → e' = 1)
    (h : s * 2 ^ e = s' * 2 ^ e') : s = s' ∧ e = e' := by
  have hsplit : (2 : Nat) ^ e' = 2 ^ (e' - e) * 2 ^ e := by
    rw [← pow_add]
    congr 1
    omega
  rw [hsplit, ← Nat.mul_assoc] at h
  have hc : s = s' * 2 ^ (e' - e) := Nat.eq_of_mul_eq_mul_right (Nat.pow_pos (by norm_num)) h
  by_cases hee : e = e'
  · subst hee
    simp at hc
    exact ⟨hc, rfl⟩
  · exfalso
    have h2 : 2 ≤ 2 ^ (e' - e) := by
      calc 2 = 2 ^ 1 := by norm_num
        _ ≤ 2 ^ (e' - e) := Nat.pow_le_pow_right (by norm_num) (by omega)
    have h3 : 8388608 ≤ s' := by
      by_contra hc'
      have := hn' (by omega)
      omega
    have h4 : 8388608 * 2 ≤ s' * 2 ^ (e' - e) := Nat.mul_le_mul h3 h2
    omega

/-- Two finite floats of the same magnitude have the same exponent and fraction fields. -/
theorem F32.fields_of_mag_eq (r r' : F32) (h : r.mag = r'.mag) :
    r.expo = r'.expo ∧ r.frac = r'.frac := by
  have hN : r.sig * 2 ^ r.bexp = r'.sig * 2 ^ r'.bexp := by
    unfold F32.mag at h
    rw [div_left_inj' (by positivity)] at h
    exact_mod_cast h
  have hsb : r.sig = r'.sig ∧ r.bexp = r'.bexp := by
    rcases le_total r.bexp r'.bexp with hle | hle
    · exact scaled_inj_aux _ _ _ _ hle r.bexp_bounds.1 r.sig_lt r'.bexp_of_sig_lt hN
    · have := scaled_inj_aux _ _ _ _ hle r'.bexp_bounds.1 r'.sig_lt r.bexp_of_sig_lt hN.symm
      exact ⟨this.1.symm, this.2.symm⟩
  obtain ⟨hs, hb⟩ := hsb
  have hf : r.frac < 8388608 := by unfold F32.frac; omega
  have hf' : r'.frac < 8388608 := by unfold F32.frac; omega
  unfold F32.sig at hs
  unfold F32.bexp at hb
  split_ifs at hs hb with h1 h2 h2 <;> omega

/-- What `f32_mul` computes on finite operands with a nonzero product of significands:
a unit index `tb`, a shift `sh` and a rounded quotient `q`, with the facts that tie them
to the exact product. -/
theorem f32_mul_decomp (a b : F32) (ha : a.isFinite = true) (hb : b.isFinite = true)
    (hm : a.sig * b.sig ≠ 0) :
    ∃ tb sh q : ℕ,
      f32_mul a b = f32_pack (a.sign + b.sign) (tb * 8388608 + q) ∧
      q = roundHalfEven (a.sig * b.sig) (2 ^ sh) ∧
      a.mag * b.mag = unitOf tb * (((a.sig * b.sig : ℕ) : ℚ) / ((2 ^ sh : ℕ) : ℚ)) ∧
      a.sig * b.sig < 16777216 * 2 ^ sh ∧
      (0 < tb → 8388608 * 2 ^ sh ≤ a.sig * b.sig) ∧
      q ≤ 16777216 ∧ (0 < tb → 8388608 ≤ q) := by
  obtain ⟨s1, s2, s3⟩ := f32_mul_shift a b hm
  have hd : 0 < 2 ^ ((a.bexp + b.bexp + bitLen (a.sig * b.sig)) - 175 + 151
      - (a.bexp + b.bexp)) := Nat.pow_pos (by norm_num)
  obtain ⟨q1, q2⟩ := round_bounds (a.sig * b.sig) _ _ hd s2 s3
  exact ⟨_, _, _, f32_mul_finite a b ha hb hm, rfl, mag_mul_eq a b _ _ (by omega), s2, s3,
    q1, q2⟩

/-- An infinity is not finite. -/
theorem F32.not_finite_of_isInf (r : F32) (h : r.isInf = true) : r.isFinite = false := by
  unfold F32.isInf at h
  unfold F32.isFinite
  simp only [Bool.and_eq_true, beq_iff_eq] at h
  simp [h.1]

/-- The fields of an infinity. -/
theorem F32.fields_of_isInf (r : F32) (h : r.isInf = true) : r.expo = 255 ∧ r.frac = 0 := by
  unfold F32.isInf at h
  simpa using h

/-- The magnitude of a finite float is not negative. -/
theorem F32.mag_nonneg (r : F32) : 0 ≤ r.mag := by
  unfold F32.mag
  positivity

/-- A float whose significand is odd when divided by no power of two: if
`sig * 2 ^ j` is odd then the fraction is odd. -/
theorem F32.frac_odd_of_scaled_odd (r : F32) (j : Nat) (h : (r.sig * 2 ^ j) % 2 = 1) :
    r.frac % 2 = 1 := by
  have hj : j = 0 := by
    by_contra hj
    obtain ⟨k, rfl⟩ := Nat.exists_eq_succ_of_ne_zero hj
    rw [pow_succ, ← Nat.mul_assoc, Nat.mul_mod_left] at h
    omega
  subst hj
  rw [pow_zero, Nat.mul_one] at h
  unfold F32.sig at h
  split_ifs at h <;> omega

/-- The IEEE-754 description determines the product: on finite operands, a float that
`IsProductRNE` describes is the one `f32_mul` returns. -/
theorem IsProductRNE_unique (a b r : F32) (ha : a.isFinite = true) (hb : b.isFinite = true)
    (h : IsProductRNE a b r) : r = f32_mul a b := by
  obtain ⟨hs0, hov0, hfin0⟩ := f32_mul_isProductRNE a b ha hb
  obtain ⟨hs, hov, hfin⟩ := h
  have hsign : r.sign = (f32_mul a b).sign := hs.trans hs0.symm
  rcases le_or_lt ((2 : ℚ) ^ 128 - (2 : ℚ) ^ 103) (a.mag * b.mag) with hge | hlt
  · -- overflow: both are the infinity of that sign
    obtain ⟨e1, f1⟩ := r.fields_of_isInf (hov hge)
    obtain ⟨e2, f2⟩ := (f32_mul a b).fields_of_isInf (hov0 hge)
    exact F32.eq_of_fields _ _ hsign (e1.trans e2.symm) (f1.trans f2.symm)
  · obtain ⟨f, N, T⟩ := hfin hlt
    obtain ⟨f0, N0, T0⟩ := hfin0 hlt
    have heq : |r.mag - a.mag * b.mag| = |(f32_mul a b).mag - a.mag * b.mag| :=
      le_antisymm (N _ f0) (N0 _ f)
    by_cases hmag : r.mag = (f32_mul a b).mag
    · obtain ⟨he, hf⟩ := F32.fields_of_mag_eq _ _ hmag
      exact F32.eq_of_fields _ _ hsign he hf
    · -- two nearest floats of different magnitudes: both would be even
      exfalso
      have hreven : r.frac % 2 = 0 := T _ f0 (Ne.symm hmag) heq.symm
      by_cases hm : a.sig * b.sig = 0
      · -- the exact product is zero: both magnitudes are zero
        have hx : a.mag * b.mag = 0 := by
          unfold F32.mag
          have : (a.sig : ℚ) * b.sig = 0 := by exact_mod_cast hm
          rcases mul_eq_zero.1 this with h | h <;> rw [h] <;> simp
        have hz : f32_zero.mag = 0 := mag_eq_zero _ rfl
        have h1 := N f32_zero (by decide)
        have h2 := N0 f32_zero (by decide)
        rw [hx, hz] at h1 h2
        simp only [sub_zero, abs_zero, abs_nonpos_iff] at h1 h2
        exact hmag (h1.trans h2.symm)
      · obtain ⟨tb, sh, q, hpack, hq, hx, s2, s3, q1, q2⟩ := f32_mul_decomp a b ha hb hm
        have hd : 0 < 2 ^ sh := Nat.pow_pos (by norm_num)
        obtain ⟨r1, r2, r3⟩ := roundHalfEven_spec (a.sig * b.sig) (2 ^ sh) hd
        rw [← hq] at r1 r2 r3
        have hP : tb * 8388608 + q < 2139095040 := by
          by_contra hc
          have hinf := (f32_pack_overflow (a.sign + b.sign) _ (not_lt.1 hc)).1
          rw [← hpack] at hinf
          rw [F32.not_finite_of_isInf _ hinf] at f0
          exact Bool.false_ne_true f0
        have hn : tb = 0 ∨ 8388608 ≤ q := by
          by_cases h0 : tb = 0
          · exact Or.inl h0
          · exact Or.inr (q2 (by omega))
        obtain ⟨-, -, hval, -⟩ := f32_pack_fields (a.sign + b.sign) tb q q1 hn hP
        rw [← hpack] at hval
        have hr0 := mag_eq_unit_mul _ q tb hval
        have hU := unitOf_pos tb
        rw [hr0, hx] at heq
        rcases mag_unit_cases r tb with ⟨-, hK⟩ | ⟨htpos, hlt'⟩
        · rw [hK] at heq
          have hKq : r.sig * 2 ^ (r.bexp - (tb + 1)) ≠ q := by
            intro hc
            apply hmag
            rw [hK, hr0, hc]
          obtain ⟨htie, hadj⟩ :=
            (nearest_scaled (unitOf tb) hU q (2 ^ sh) (a.sig * b.sig) _ hd r1 r2).2 hKq heq
          have hqeven : q % 2 = 0 := r3 htie
          have hodd : (r.sig * 2 ^ (r.bexp - (tb + 1))) % 2 = 1 := by
            rcases hadj with h | h <;> omega
          have := r.frac_odd_of_scaled_odd _ hodd
          omega
        · have hn8 := (nearest_scaled (unitOf tb) hU q (2 ^ sh) (a.sig * b.sig) 8388608
            hd r1 r2).1
          have hge : unitOf tb * ((8388608 : ℕ) : ℚ)
              ≤ unitOf tb * (((a.sig * b.sig : ℕ) : ℚ) / ((2 ^ sh : ℕ) : ℚ)) := by
            apply mul_le_mul_of_nonneg_left _ (le_of_lt hU)
            rw [le_div_iff₀ (by exact_mod_cast hd)]
            exact_mod_cast s3 htpos
          have hlt'' : r.mag < unitOf tb * ((8388608 : ℕ) : ℚ) := by exact_mod_cast hlt'
          have := far_below _ _ _ _ hn8 hge hlt''
          rw [heq] at this
          exact lt_irrefl _ this

/-! ## The claims -/

/-- C1: for finite `dx`, `dy`, `smooth`, the IEEE-754 binary32 product (round to
nearest, ties to even, overflow to infinity) of `dx` and `smooth` exists and is unique,
and so does that of `dy` and `smooth`; bytes 2..5 of the report are the little-endian
encoding of the first and bytes 6..9 that of the second. -/
theorem AdjustAim_payload_floats (os : Win32) (dx dy smooth : F32)
    (hx : dx.isFinite = true) (hy : dy.isFinite = true) (hs : smooth.isFinite = true) :
    ∃ run px py, AdjustAim os dx dy smooth = some run ∧
      IsProductRNE dx smooth px ∧ (∀ p, IsProductRNE dx smooth p → p = px) ∧
      IsProductRNE dy smooth py ∧ (∀ p, IsProductRNE dy smooth p → p = py) ∧
      slice run.report 2 6 = f32_bytes px ∧ slice run.report 6 10 = f32_bytes py ∧
      f32_ofBytes (slice run.report 2 6) = some px ∧
      f32_ofBytes (slice run.report 6 10) = some py := by
  have e2 : slice ([0x0B, 0x02] ++ f32_bytes (f32_mul dx smooth)
      ++ f32_bytes (f32_mul dy smooth) ++ List.replicate 54 0) 2 6
      = f32_bytes (f32_mul dx smooth) := by simp [slice, f32_bytes]
  have e6 : slice ([0x0B, 0x02] ++ f32_bytes (f32_mul dx smooth)
      ++ f32_bytes (f32_mul dy smooth) ++ List.replicate 54 0) 6 10
      = f32_bytes (f32_mul dy smooth) := by simp [slice, f32_bytes]
  refine ⟨_, f32_mul dx smooth, f32_mul dy smooth, AdjustAim_run os dx dy smooth,
    f32_mul_isProductRNE dx smooth hx hs, fun p hp => IsProductRNE_unique dx smooth p hx hs hp,
    f32_mul_isProductRNE dy smooth hy hs, fun p hp => IsProductRNE_unique dy smooth p hy hs hp,
    e2, e6, ?_, ?_⟩
  · show f32_ofBytes (slice _ 2 6) = _
    rw [e2]
    exact f32_ofBytes_bytes _
  · show f32_ofBytes (slice _ 6 10) = _
    rw [e6]
    exact f32_ofBytes_bytes _

/-- Witness of C1: `dx = 1.0`, `dy = -2.0`, `smooth = 0.5` are finite. -/
theorem AdjustAim_payload_floats_witness :
    f32_one.isFinite = true ∧ f32_negTwo.isFinite = true ∧ f32_half.isFinite = true ∧
    ∃ run px py, AdjustAim osAccepting f32_one f32_negTwo f32_half = some run ∧
      IsProductRNE f32_one f32_half px ∧ (∀ p, IsProductRNE f32_one f32_half p → p = px) ∧
      IsProductRNE f32_negTwo f32_half py ∧
      (∀ p, IsProductRNE f32_negTwo f32_half p → p = py) ∧
      slice run.report 2 6 = f32_bytes px ∧ slice run.report 6 10 = f32_bytes py ∧
      f32_ofBytes (slice run.report 2 6) = some px ∧
      f32_ofBytes (slice run.report 6 10) = some py :=
  ⟨by decide, by decide, by decide,
    AdjustAim_payload_floats osAccepting f32_one f32_negTwo f32_half (by decide) (by decide)
      (by decide)⟩

/-- C2: for every `dx`, `dy`, `smooth` (NaN and infinities included) and every answer
of the operating system, the run succeeds and byte 0 of the report is `0x0B` and byte 1
is `0x02`: the two copies at offsets 2 and 6 leave them alone. -/
theorem AdjustAim_header (os : Win32) (dx dy smooth : F32) :
    ∃ run, AdjustAim os dx dy smooth = some run ∧
      run.report[0]? = some 0x0B ∧ run.report[1]? = some 0x02 ∧
      slice run.report 0 2 = [0x0B, 0x02] := by
  refine ⟨_, AdjustAim_run os dx dy smooth, ?_, ?_, ?_⟩ <;> simp [slice]

/-- C3: for every `dx`, `dy`, `smooth`, both copies are in bounds (the run is not
undefined), the report has exactly 64 bytes, and the byte at every index 10 to 63 is
zero: they are the 54 last zero bytes of the initialiser. -/
theorem AdjustAim_tail_zero (os : Win32) (dx dy smooth : F32) :
    ∃ run, AdjustAim os dx dy smooth = some run ∧
      run.report.length = 64 ∧ slice run.report 10 64 = List.replicate 54 0 ∧
      ∀ i : Fin 54, run.report[10 + i.val]? = some 0 := by
  refine ⟨_, AdjustAim_run os dx dy smooth, ?_, ?_, ?_⟩
  · simp [f32_bytes]
  · simp [slice, f32_bytes]
  · intro i
    have hlen : ([0x0B, 0x02] ++ f32_bytes (f32_mul dx smooth)
        ++ f32_bytes (f32_mul dy smooth)).length = 10 := by simp [f32_bytes]
    show (([0x0B, 0x02] ++ f32_bytes (f32_mul dx smooth) ++ f32_bytes (f32_mul dy smooth))
      ++ List.replicate 54 0)[10 + i.val]? = some 0
    rw [List.getElem?_append_right (by omega), hlen, List.getElem?_replicate]
    have := i.isLt
    simp

/-- C4: if the open fails (`CreateFileW` returns `INVALID_HANDLE_VALUE`), the run
terminates normally and its trace is the single failed open: no set-feature request
and no close. -/
theorem AdjustAim_open_fails (os : Win32) (dx dy smooth : F32)
    (h : os.openDevice = INVALID_HANDLE_VALUE) :
    ∃ run, AdjustAim os dx dy smooth = some run ∧
      run.calls = [Call.CreateFileW devicePath GENERIC_WRITE
        (FILE_SHARE_READ ||| FILE_SHARE_WRITE) NULL OPEN_EXISTING FILE_ATTRIBUTE_NORMAL NULL
        INVALID_HANDLE_VALUE] ∧
      run.calls.all (fun c => !c.isSetFeature && !c.isClose) = true := by
  refine ⟨_, AdjustAim_run os dx dy smooth, ?_, ?_⟩ <;> simp [h, Call.isSetFeature, Call.isClose]

/-- Witness of C4: on `osAbsent` the open fails, and the trace of
`AdjustAim(1.0, -2.0, 0.5)` is that one call. -/
theorem AdjustAim_open_fails_witness :
    osAbsent.openDevice = INVALID_HANDLE_VALUE ∧
    ∃ run, AdjustAim osAbsent f32_one f32_negTwo f32_half = some run ∧
      run.calls = [Call.CreateFileW devicePath GENERIC_WRITE
        (FILE_SHARE_READ ||| FILE_SHARE_WRITE) NULL OPEN_EXISTING FILE_ATTRIBUTE_NORMAL NULL
        INVALID_HANDLE_VALUE] ∧
      run.calls.all (fun c => !c.isSetFeature && !c.isClose) = true :=
  ⟨rfl, AdjustAim_open_fails osAbsent f32_one f32_negTwo f32_half rfl⟩

/-- C5: in every run the number of closes equals the number of successful opens and no
handle is used after its close; and if the open succeeds with handle `h`, the trace is
the open, one set-feature request on `h` with the whole 64-byte report and length 64,
and one close of `h`, whatever the request and the close answer. -/
theorem AdjustAim_open_succeeds (os : Win32) (dx dy smooth : F32) :
    ∃ run, AdjustAim os dx dy smooth = some run ∧
      (run.calls.filter Call.isClose).length = (run.calls.filter Call.isOpened).length ∧
      noUseAfterClose run.calls = true ∧
      (os.openDevice ≠ INVALID_HANDLE_VALUE →
        run.report.length = 64 ∧
        run.calls = [Call.CreateFileW devicePath GENERIC_WRITE
            (FILE_SHARE_READ ||| FILE_SHARE_WRITE) NULL OPEN_EXISTING FILE_ATTRIBUTE_NORMAL NULL
            os.openDevice,
          Call.HidD_SetFeature os.openDevice run.report 64
            (os.HidD_SetFeature os.openDevice run.report 64),
          Call.CloseHandle os.openDevice (os.CloseHandle os.openDevice)]) := by
  refine ⟨_, AdjustAim_run os dx dy smooth, ?_, ?_, ?_⟩
  · by_cases h : os.openDevice = INVALID_HANDLE_VALUE
    · simp [h, Call.isClose, Call.isOpened, List.filter]
    · have hb : (os.openDevice != INVALID_HANDLE_VALUE) = true := by simpa using h
      simp [h, hb, Call.isClose, Call.isOpened, List.filter]
  · by_cases h : os.openDevice = INVALID_HANDLE_VALUE <;>
      simp [h, noUseAfterClose]
  · intro h
    simp [h, f32_bytes]

/-- Witness of C5: on `osRefusing` the open succeeds with handle `0x1F4`, the request
is refused, and the handle is still closed once. -/
theorem AdjustAim_open_succeeds_witness :
    osRefusing.openDevice ≠ INVALID_HANDLE_VALUE ∧
    osRefusing.HidD_SetFeature 0x1F4 [] 64 = false ∧
    ∃ run, AdjustAim osRefusing f32_one f32_negTwo f32_half = some run ∧
      (run.calls.filter Call.isClose).length = (run.calls.filter Call.isOpened).length ∧
      noUseAfterClose run.calls = true ∧
      (osRefusing.openDevice ≠ INVALID_HANDLE_VALUE →
        run.report.length = 64 ∧
        run.calls = [Call.CreateFileW devicePath GENERIC_WRITE
            (FILE_SHARE_READ ||| FILE_SHARE_WRITE) NULL OPEN_EXISTING FILE_ATTRIBUTE_NORMAL NULL
            osRefusing.openDevice,
          Call.HidD_SetFeature osRefusing.openDevice run.report 64
            (osRefusing.HidD_SetFeature osRefusing.openDevice run.report 64),
          Call.CloseHandle osRefusing.openDevice
            (osRefusing.CloseHandle osRefusing.openDevice)]) :=
  ⟨by decide, rfl, AdjustAim_open_succeeds osRefusing f32_one f32_negTwo f32_half⟩

/-- C7: for `dx = 1.0`, `dy = -2.0`, `smooth = 0.5` the report is
`0B 02 00 00 00 3F 00 00 80 BF` followed by 54 zero bytes; bytes 2..5 are
`00 00 00 3F` and decode to `0.5`, bytes 6..9 are `00 00 80 BF` and decode to `-1.0`. -/
theorem AdjustAim_example (os : Win32) :
    ∃ run, AdjustAim os f32_one f32_negTwo f32_half = some run ∧
      run.report = [0x0B, 0x02, 0x00, 0x00, 0x00, 0x3F, 0x00, 0x00, 0x80, 0xBF]
        ++ List.replicate 54 0 ∧
      slice run.report 2 6 = [0x00, 0x00, 0x00, 0x3F] ∧
      slice run.report 6 10 = [0x00, 0x00, 0x80, 0xBF] ∧
      (f32_ofBytes (slice run.report 2 6)).bind F32.toRat = some (1 / 2) ∧
      (f32_ofBytes (slice run.report 6 10)).bind F32.toRat = some (-1) := by
  have hx : f32_mul f32_one f32_half = ⟨0x3F000000, by decide⟩ := by decide
  have hy : f32_mul f32_negTwo f32_half = ⟨0xBF800000, by decide⟩ := by decide
  refine ⟨_, AdjustAim_run os _ _ _, ?_, ?_, ?_, ?_, ?_⟩
  · simp [hx, hy, f32_bytes]
  · simp [hx, hy, f32_bytes, slice]
  · simp [hx, hy, f32_bytes, slice]
  · simp [hx, hy, f32_bytes, slice, f32_ofBytes, F32.toRat, F32.expo, F32.sign, F32.sig,
      F32.bexp, F32.frac]
    norm_num
  · simp [hx, hy, f32_bytes, slice, f32_ofBytes, F32.toRat, F32.expo, F32.sign, F32.sig,
      F32.bexp, F32.frac]
    norm_num

/-- C8: the report depends on `(dx, dy, smooth)` alone: two runs on the same inputs,
under any two operating systems (any outcome of the open and of the request), both
succeed with the same 64 bytes. -/
theorem AdjustAim_report_deterministic (os₁ os₂ : Win32) (dx dy smooth : F32) :
    ∃ run₁ run₂, AdjustAim os₁ dx dy smooth = some run₁ ∧
      AdjustAim os₂ dx dy smooth = some run₂ ∧
      run₁.report = run₂.report ∧ run₁.report.length = 64 := by
  refine ⟨_, _, AdjustAim_run os₁ dx dy smooth, AdjustAim_run os₂ dx dy smooth, rfl, ?_⟩
  simp [f32_bytes]

/-- C9: every run makes exactly one open attempt, the first call of the trace, with
arguments that are constants: the path `\\.\HID#VID_09DA&PID_31F8`, `GENERIC_WRITE`,
`FILE_SHARE_READ | FILE_SHARE_WRITE`, `OPEN_EXISTING` (none of the creating
dispositions); the two hexadecimal fields of the path are the 4-digit uppercase
renderings of `BLOODY_VID` and `BLOODY_PID`. -/
theorem AdjustAim_open_arguments (os : Win32) (dx dy smooth : F32) :
    ∃ run, AdjustAim os dx dy smooth = some run ∧
      run.calls.filter Call.isOpen =
        [Call.CreateFileW "\\\\.\\HID#VID_09DA&PID_31F8" 0x40000000 3 0 3 0x80 0
          os.openDevice] ∧
      run.calls.head? = some (Call.CreateFileW devicePath GENERIC_WRITE
        (FILE_SHARE_READ ||| FILE_SHARE_WRITE) NULL OPEN_EXISTING FILE_ATTRIBUTE_NORMAL NULL
        os.openDevice) ∧
      devicePath = "\\\\.\\HID#VID_" ++ hex4 BLOODY_VID ++ "&PID_" ++ hex4 BLOODY_PID ∧
      GENERIC_WRITE = 0x40000000 ∧ FILE_SHARE_READ ||| FILE_SHARE_WRITE = 3 ∧
      OPEN_EXISTING ∉ [CREATE_NEW, CREATE_ALWAYS, OPEN_ALWAYS] ∧
      BLOODY_VID = 0x09DA ∧ BLOODY_PID = 0x31F8 := by
  refine ⟨_, AdjustAim_run os dx dy smooth, ?_, rfl, by decide, rfl, by decide, by decide,
    rfl, rfl⟩
  have hp : devicePath = "\\\\.\\HID#VID_09DA&PID_31F8" := rfl
  have h3 : FILE_SHARE_READ ||| FILE_SHARE_WRITE = 3 := by decide
  by_cases h : os.openDevice = INVALID_HANDLE_VALUE <;>
    simp [h, Call.isOpen, List.filter, hp, h3, GENERIC_WRITE, NULL, OPEN_EXISTING,
      FILE_ATTRIBUTE_NORMAL]

/-- C10: the two axes are independent: changing `dy` alone leaves every byte outside
`[6,10)` unchanged, and changing `dx` alone leaves every byte outside `[2,6)`
unchanged. -/
theorem AdjustAim_axes_independent (os : Win32) (dx₁ dx₂ dy₁ dy₂ smooth : F32) :
    (∃ r₁ r₂, AdjustAim os dx₁ dy₁ smooth = some r₁ ∧ AdjustAim os dx₁ dy₂ smooth = some r₂ ∧
      r₁.report.length = r₂.report.length ∧
      slice r₁.report 0 6 = slice r₂.report 0 6 ∧
      slice r₁.report 10 64 = slice r₂.report 10 64) ∧
    (∃ r₁ r₂, AdjustAim os dx₁ dy₁ smooth = some r₁ ∧ AdjustAim os dx₂ dy₁ smooth = some r₂ ∧
      r₁.report.length = r₂.report.length ∧
      slice r₁.report 0 2 = slice r₂.report 0 2 ∧
      slice r₁.report 6 64 = slice r₂.report 6 64) := by
  refine ⟨⟨_, _, AdjustAim_run os _ _ _, AdjustAim_run os _ _ _, ?_, ?_, ?_⟩,
    ⟨_, _, AdjustAim_run os _ _ _, AdjustAim_run os _ _ _, ?_, ?_, ?_⟩⟩ <;>
    simp [slice, f32_bytes]

/-- C6, as stated, fails: `smooth = 0.0` and the non-NaN `dx = +inf`, `dy = 1.0` give
a report whose bytes 2..5 hold a NaN (`inf * 0` is an invalid operation), not a zero. -/
theorem AdjustAim_zero_smooth_infinite_dx :
    f32_inf.isNaN = false ∧ f32_one.isNaN = false ∧ f32_zero.bits = 0 ∧
    ∃ run fx, AdjustAim osAbsent f32_inf f32_one f32_zero = some run ∧
      f32_ofBytes (slice run.report 2 6) = some fx ∧
      fx.isNaN = true ∧ fx.isZero = false ∧ fx.toRat = none := by
  refine ⟨by decide, by decide, rfl, _, f32_mul f32_inf f32_zero, AdjustAim_run _ _ _ _,
    ?_, ?_⟩
  · have : slice ([0x0B, 0x02] ++ f32_bytes (f32_mul f32_inf f32_zero)
        ++ f32_bytes (f32_mul f32_one f32_zero) ++ List.replicate 54 0) 2 6
        = f32_bytes (f32_mul f32_inf f32_zero) := by simp [slice, f32_bytes]
    rw [this]
    exact f32_ofBytes_bytes _
  · have h : f32_mul f32_inf f32_zero = f32_defaultNaN := by decide
    rw [h]
    refine ⟨by decide, by decide, ?_⟩
    simp [F32.toRat, F32.expo, f32_defaultNaN]

/-- C6, amended: for `smooth` a zero and finite `dx`, `dy`, the two floats of the
report (bytes 2..5 and 6..9) are zeros: their value is 0, and their sign bit is the
sign of `dx` (of `dy`) xor the sign of `smooth`. -/
theorem AdjustAim_zero_smooth (os : Win32) (dx dy smooth : F32)
    (hs : smooth.isZero = true) (hx : dx.isFinite = true) (hy : dy.isFinite = true) :
    ∃ run fx fy, AdjustAim os dx dy smooth = some run ∧
      f32_ofBytes (slice run.report 2 6) = some fx ∧
      f32_ofBytes (slice run.report 6 10) = some fy ∧
      fx.isZero = true ∧ fy.isZero = true ∧ fx.toRat = some 0 ∧ fy.toRat = some 0 ∧
      fx.sign = (dx.sign + smooth.sign) % 2 ∧ fy.sign = (dy.sign + smooth.sign) % 2 := by
  have ex := f32_pack_zero (dx.sign + smooth.sign)
  have ey := f32_pack_zero (dy.sign + smooth.sign)
  refine ⟨_, f32_pack (dx.sign + smooth.sign) 0, f32_pack (dy.sign + smooth.sign) 0,
    AdjustAim_run os dx dy smooth, ?_, ?_, ex.1, ey.1, ex.2.2, ey.2.2, ex.2.1, ey.2.1⟩
  · rw [← f32_mul_zero_right dx smooth hx hs, ← f32_ofBytes_bytes (f32_mul dx smooth)]
    simp [slice, f32_bytes]
  · rw [← f32_mul_zero_right dy smooth hy hs, ← f32_ofBytes_bytes (f32_mul dy smooth)]
    simp [slice, f32_bytes]

/-- Witness of C6 amended: `dx = 1.0`, `dy = -2.0`, `smooth = 0.0` are a zero and two
finite floats. -/
theorem AdjustAim_zero_smooth_witness :
    f32_zero.isZero = true ∧ f32_one.isFinite = true ∧ f32_negTwo.isFinite = true ∧
    ∃ run fx fy, AdjustAim osAccepting f32_one f32_negTwo f32_zero = some run ∧
      f32_ofBytes (slice run.report 2 6) = some fx ∧
      f32_ofBytes (slice run.report 6 10) = some fy ∧
      fx.isZero = true ∧ fy.isZero = true ∧ fx.toRat = some 0 ∧ fy.toRat = some 0 ∧
      fx.sign = (f32_one.sign + f32_zero.sign) % 2 ∧
      fy.sign = (f32_negTwo.sign + f32_zero.sign) % 2 :=
  ⟨by decide, by decide, by decide,
    AdjustAim_zero_smooth osAccepting f32_one f32_negTwo f32_zero (by decide) (by decide)
      (by decide)⟩

end BloodyCore
